import Mathlib

/-!
Verification development for the npvm package-manager platform.

This file shallowly embeds the parts of the TypeScript sources that the
checked properties are about:

* `packages/server/src/services/remote.ts` — input classification,
  lock-file parsing, package extraction, OSV severity mapping,
  update checking and the git-repository analysis path;
* `packages/server/src/adapters/bun.ts` and the npm adapter — install /
  uninstall / update progress traces and audit normalization;
* `packages/server/src/utils/security.ts` — package-name and URL
  validation.

Conventions of the embedding:

* JSON texts are represented by their parse trees (`Json`); the outcome of
  `JSON.parse` (which may throw) is an `Except String Json` input.
  `Json.obj` keeps the syntactic field list, which may contain duplicate
  keys exactly as JSON text may; the access functions `objEntries` /
  `objGet` implement the ECMAScript object semantics that `JSON.parse`
  produces: key order is first-occurrence order, the stored value is the
  last assignment.
* JavaScript truthiness on string-typed values (`x || d`) is modelled by
  `jsOrStr` / `jsStrOr`: `undefined`, `null` and `""` select the default.
  Truthy values of the wrong runtime type (e.g. a numeric `name` field in
  a lock file) are outside the embedded domain and are treated as absent.
* Network effects (`fetch`) are inputs: a function from package name to a
  `FetchResult`, or an `Option String` for a single file fetch.
* Machine integers do not occur; all arithmetic is on `Nat`.
-/

namespace NPVM

/-! ## JSON values and JavaScript object semantics -/

/-- A JSON parse tree. `obj` keeps the raw syntactic field list in source
order, possibly with duplicate keys. -/
inductive Json where
  | null : Json
  | bool (b : Bool) : Json
  | num (n : Int) : Json
  | str (s : String) : Json
  | arr (elems : List Json) : Json
  | obj (fields : List (String × Json)) : Json

/-- The value a JS object built from `fields` holds at key `k`, given a
current candidate `v`: the last assignment wins. -/
def jsLast (k : String) (v : Json) : List (String × Json) → Json
  | [] => v
  | (k2, v2) :: rest => if k2 = k then jsLast k v2 rest else jsLast k v rest

/-- `Object.entries` of the JS object built from a (possibly duplicated)
field list: keys in first-occurrence order, each with its last value.
(Filtering the later duplicates of a key after the recursive call is
equivalent to filtering them before it, because the dedup of the other
keys is unaffected by them; this form is structurally recursive.) -/
def objEntries : List (String × Json) → List (String × Json)
  | [] => []
  | (k, v) :: rest =>
      (k, jsLast k v rest) :: (objEntries rest).filter (fun p => ¬ (p.1 = k))

/-- Property access `o[k]` on the JS object built from `fields`:
the last value stored under `k`, or `undefined`. -/
def objGet (fields : List (String × Json)) (k : String) : Option Json :=
  (fields.filterMap (fun p => if p.1 = k then some p.2 else none)).getLast?

/-- Property access `j.k` when `j` is a JSON value; non-objects have no
(own) string-keyed properties of interest. -/
def objGetJ (j : Json) (k : String) : Option Json :=
  match j with
  | Json.obj fields => objGet fields k
  | _ => none

/-- JS falsiness of a JSON value (`undefined` is `Option.none` upstream). -/
def jsFalsy : Json → Bool
  | Json.null => true
  | Json.bool b => !b
  | Json.num n => n == 0
  | Json.str s => s == ""
  | Json.arr _ => false
  | Json.obj _ => false

/-- `x || d` for a possibly-absent string-typed value `x`. -/
def jsOrStr (v : Option String) (d : String) : String :=
  match v with
  | none => d
  | some s => if s = "" then d else s

/-- `x || d` for a possibly-absent JSON value whose string payload is
wanted: a non-empty string is kept, anything else yields the default
(non-string truthy values are outside the embedded domain). -/
def jsStrOr (v : Option Json) (d : String) : String :=
  match v with
  | some (Json.str s) => if s = "" then d else s
  | _ => d

/-- `x || {}` followed by use as an object: the field list of a truthy
object, else empty (`Object.entries` of truthy non-objects other than
strings is empty; string-valued fields are outside the embedded domain). -/
def jsOrObj (v : Option Json) : List (String × Json) :=
  match v with
  | some (Json.obj fields) => fields
  | _ => []

/-! ## Shared result shapes (`@dext7r/npvm-shared`) -/

/-- `DependencyNode` from the shared types (the optional `isCircular`
flag is never set by the embedded code paths and is omitted). -/
inductive DependencyNode where
  | node (name version : String) (children : List DependencyNode) : DependencyNode

def DependencyNode.name : DependencyNode → String
  | DependencyNode.node n _ _ => n

def DependencyNode.version : DependencyNode → String
  | DependencyNode.node _ v _ => v

def DependencyNode.children : DependencyNode → List DependencyNode
  | DependencyNode.node _ _ cs => cs

/-! ## String utilities mirroring the JS string methods used -/

/-- First occurrence of `pat` in `s`: the text before it and the text
after it (JS `indexOf`-style, leftmost). -/
def firstOccur (pat : List Char) : List Char → Option (List Char × List Char)
  | [] => if pat = [] then some ([], []) else none
  | c :: cs =>
      if pat.isPrefixOf (c :: cs) then some ([], (c :: cs).drop pat.length)
      else match firstOccur pat cs with
        | some (pre, post) => some (c :: pre, post)
        | none => none

/-- `s.replace(pat, '')` for a string `pat`: JS `String.prototype.replace`
with a string pattern removes only the first occurrence. -/
def removeFirst (pat : List Char) : List Char → List Char
  | [] => []
  | c :: cs =>
      if pat.isPrefixOf (c :: cs) then (c :: cs).drop pat.length
      else c :: removeFirst pat cs

/-- Fuelled worker for `splitSub`: every step consumes at least one
character, so fuel `s.length` never runs out when starting from `s`. -/
def splitSubF (p : Char) (ps : List Char) : Nat → List Char → List (List Char)
  | _, [] => [[]]
  | 0, s => [s]
  | fuel + 1, c :: cs =>
      if (p :: ps).isPrefixOf (c :: cs) then
        [] :: splitSubF p ps fuel (cs.drop ps.length)
      else
        match splitSubF p ps fuel cs with
        | [] => [[c]]
        | chunk :: rest => (c :: chunk) :: rest

/-- `s.split(pat)` for a non-empty string pattern `p :: ps`
(leftmost, non-overlapping). -/
def splitSub (p : Char) (ps : List Char) (s : List Char) : List (List Char) :=
  splitSubF p ps s.length s

/-- Number of occurrences of the pattern `p :: ps` in `s`
(`s.split(pat).length - 1`). -/
def countSub (p : Char) (ps : List Char) (s : List Char) : Nat :=
  (splitSub p ps s).length - 1

/-- JS `String.prototype.includes`. -/
def strIncludes (s sub : String) : Bool :=
  (firstOccur sub.toList s.toList).isSome

/-- `content.split('\n')`. -/
def splitLines (s : String) : List String :=
  (splitSub '\n' [] s.toList).map String.mk

/-- JS `String.prototype.startsWith`, on the character lists. -/
def startsWithL (s p : String) : Bool :=
  p.toList.isPrefixOf s.toList

/-- JS `String.prototype.toLowerCase` (ASCII part: per-character
lowering; the embedded inputs are ASCII). -/
def jsToLower (s : String) : String :=
  String.mk (s.toList.map Char.toLower)

/-- The characters of `"node_modules/"`. -/
def nmChars : List Char :=
  ['n', 'o', 'd', 'e', '_', 'm', 'o', 'd', 'u', 'l', 'e', 's', '/']

/-! ## npm lock-file parser (`parseNpmLockFile`, remote.ts) -/

/-- One candidate child from an entry of the flat `packages` map:
skip the root entry (`path === ''`), skip paths outside `node_modules/`
(`path.startsWith('node_modules/')`, tested on the character list), and
keep only first-level dependencies (after removing the leading
`node_modules/`, the path must split into a single part). -/
def npmPackagesChild (path : String) (info : Json) : Option DependencyNode :=
  if path = "" then none
  else if ¬ (nmChars.isPrefixOf path.toList) then none
  else
    match splitSub 'n' (nmChars.drop 1) (removeFirst nmChars path.toList) with
    | [part] =>
        some (DependencyNode.node (String.mk part)
          (jsStrOr (objGetJ info "version") "0.0.0") [])
    | _ => none

/-- `parseNpmLockFile` from remote.ts, applied to the outcome of
`JSON.parse(content)`.  Lock-file version 2+ uses the flat `packages`
map; otherwise the nested `dependencies` map is used.  A JSON parse
failure degrades to an empty root. -/
def parseNpmLockFile (parsed : Except String Json) : DependencyNode :=
  match parsed with
  | Except.error _ => DependencyNode.node "root" "0.0.0" []
  | Except.ok lock =>
      let rootName := jsStrOr (objGetJ lock "name") "root"
      let rootVersion := jsStrOr (objGetJ lock "version") "0.0.0"
      let packages := objEntries (jsOrObj (objGetJ lock "packages"))
      let deps := objEntries (jsOrObj (objGetJ lock "dependencies"))
      let children :=
        if packages.length > 0 then
          packages.filterMap (fun pi => npmPackagesChild pi.1 pi.2)
        else if deps.length > 0 then
          deps.map (fun pi =>
            DependencyNode.node pi.1 (jsStrOr (objGetJ pi.2 "version") "0.0.0") [])
        else []
      DependencyNode.node rootName rootVersion children

/-! ## yarn lock-file parser (`parseYarnLockFile`, remote.ts)

The source extracts entries with the global multiline regex

  `/^"?([^@\s]+)@[^"]+?"?:\s*\n\s+version\s+"([^"]+)"/gm`

The embedding implements this regex's backtracking semantics directly:
an optional quote (greedy, with fallback), a maximal run of
non-`@`/non-space characters as the name, a lazy scan to the `"?:`
delimiter (retrying later delimiters when the continuation fails), and
the whitespace/`version` continuation, in which the greedy `\s*` forces
the `\n` to be a newline that is not the last character of the
whitespace run. -/

/-- The JS `\s` character class (ASCII part; the embedded inputs are
ASCII). -/
def jsIsSpace (c : Char) : Bool :=
  c = ' ' || c = '\t' || c = '\n' || c = '\r' || c = Char.ofNat 11 || c = Char.ofNat 12

def length_dropWhile_le (p : Char → Bool) (l : List Char) :
    (l.dropWhile p).length ≤ l.length :=
  (List.dropWhile_sublist p).length_le

/-- `\s*\n\s+version`: a whitespace run that contains a newline before
its last character, followed directly by the literal `version`.
Returns the rest after `version`. -/
def matchWsVersion (s : List Char) : Option (List Char) :=
  if ((s.takeWhile jsIsSpace).dropLast.contains '\n') then
    match s.dropWhile jsIsSpace with
    | 'v' :: 'e' :: 'r' :: 's' :: 'i' :: 'o' :: 'n' :: r2 => some r2
    | _ => none
  else none

/-- `\s+"([^"]+)"`: nonempty whitespace, an opening quote, a nonempty
run of non-quote characters (the captured version), a closing quote.
Returns the capture and the rest after the closing quote. -/
def matchWsQuoted (s : List Char) : Option (String × List Char) :=
  match s with
  | [] => none
  | c :: _ =>
      if jsIsSpace c then
        match s.dropWhile jsIsSpace with
        | '"' :: r4 =>
            match r4.takeWhile (fun ch => ¬ (ch = '"')),
                  r4.dropWhile (fun ch => ¬ (ch = '"')) with
            | v1 :: vrest, '"' :: r6 => some (String.mk (v1 :: vrest), r6)
            | _, _ => none
        | _ => none
      else none

/-- The continuation after the `"?:` delimiter. -/
def yarnTail (s : List Char) : Option (String × List Char) :=
  match matchWsVersion s with
  | some r2 => matchWsQuoted r2
  | none => none

def matchWsVersion_length {s r : List Char} (h : matchWsVersion s = some r) :
    r.length < s.length := by
  unfold matchWsVersion at h
  split at h
  · split at h
    · rename_i heq
      have h2 := length_dropWhile_le jsIsSpace s
      rw [heq] at h2
      simp only [Option.some.injEq] at h
      subst h
      simp only [List.length_cons] at h2
      omega
    · exact absurd h (by simp)
  · exact absurd h (by simp)

def matchWsQuoted_length {s : List Char} {v : String} {r : List Char}
    (h : matchWsQuoted s = some (v, r)) : r.length < s.length := by
  match s with
  | [] => simp [matchWsQuoted] at h
  | c :: cs =>
      simp only [matchWsQuoted] at h
      split at h
      · split at h
        · rename_i r4 heq
          split at h
          · rename_i v1 vrest r6 heq1 heq2
            have h2 := length_dropWhile_le jsIsSpace (c :: cs)
            rw [heq] at h2
            have h3 := length_dropWhile_le (fun ch => ¬ (ch = '"')) r4
            rw [heq2] at h3
            simp only [Option.some.injEq, Prod.mk.injEq] at h
            obtain ⟨_, h4⟩ := h
            subst h4
            simp only [List.length_cons] at h2 h3 ⊢
            omega
          · exact absurd h (by simp)
        · exact absurd h (by simp)
      · exact absurd h (by simp)

def yarnTail_length {s : List Char} {v : String} {r : List Char}
    (h : yarnTail s = some (v, r)) : r.length < s.length := by
  unfold yarnTail at h
  split at h
  · rename_i r2 heq
    exact Nat.lt_trans (matchWsQuoted_length h) (matchWsVersion_length heq)
  · exact absurd h (by simp)

/-- The lazy part `[^"]+?"?:` followed by the continuation: at each
position (at least one character after the `@` having been consumed) the
engine first tries to stop at a `:` or `":` delimiter and run the
continuation, and otherwise consumes one more non-quote character. -/
def yarnLazy : List Char → Option (String × List Char)
  | [] => none
  | c :: cs =>
      if c = '"' then
        match cs with
        | ':' :: cs2 => yarnTail cs2
        | _ => none
      else if c = ':' then
        match yarnTail cs with
        | some r => some r
        | none => yarnLazy cs
      else yarnLazy cs

def yarnLazy_length : ∀ (s : List Char) (v : String) (r : List Char),
    yarnLazy s = some (v, r) → r.length < s.length := by
  intro s
  induction s with
  | nil => intro v r h; simp [yarnLazy] at h
  | cons c cs ih =>
      intro v r h
      simp only [yarnLazy] at h
      split at h
      · split at h
        · have h2 := yarnTail_length h
          simp only [List.length_cons]
          omega
        · exact absurd h (by simp)
      · split at h
        · split at h
          · rename_i r0 heq
            rw [h] at heq
            have := yarnTail_length heq
            simp only [List.length_cons]
            omega
          · have := ih v r h
            simp only [List.length_cons]
            omega
        · have := ih v r h
          simp only [List.length_cons]
          omega

/-- `[^"]+?` must consume at least one character before the first
delimiter test, and that character cannot be a quote. -/
def yarnLazyStart : List Char → Option (String × List Char)
  | [] => none
  | c :: cs => if c = '"' then none else yarnLazy cs

def yarnLazyStart_length {s : List Char} {v : String} {r : List Char}
    (h : yarnLazyStart s = some (v, r)) : r.length < s.length := by
  match s with
  | [] => simp [yarnLazyStart] at h
  | c :: cs =>
      simp only [yarnLazyStart] at h
      split at h
      · exact absurd h (by simp)
      · have := yarnLazy_length cs v r h
        simp only [List.length_cons]
        omega

/-- `([^@\s]+)` characters. -/
def yarnNameChar (c : Char) : Bool :=
  ¬ (c = '@') && ¬ (jsIsSpace c)

/-- `([^@\s]+)@` then the lazy delimiter scan: the name is the maximal
nonempty run of non-`@`, non-space characters, directly followed by `@`. -/
def yarnAfterQuote (s : List Char) : Option (String × String × List Char) :=
  match s.takeWhile yarnNameChar, s.dropWhile yarnNameChar with
  | n1 :: nrest, '@' :: t =>
      match yarnLazyStart t with
      | some (v, r) => some (String.mk (n1 :: nrest), v, r)
      | none => none
  | _, _ => none

def yarnAfterQuote_length {s : List Char} {n v : String} {r : List Char}
    (h : yarnAfterQuote s = some (n, v, r)) : r.length < s.length := by
  unfold yarnAfterQuote at h
  split at h
  · rename_i n1 nrest t heq1 heq2
    split at h
    · rename_i v0 r0 heq3
      simp only [Option.some.injEq, Prod.mk.injEq] at h
      obtain ⟨_, _, h3⟩ := h
      subst h3
      have h4 := yarnLazyStart_length heq3
      have h5 := length_dropWhile_le yarnNameChar s
      rw [heq2] at h5
      simp only [List.length_cons] at h5
      omega
    · exact absurd h (by simp)
  · exact absurd h (by simp)

/-- One attempt of the whole pattern at a line-start position: the
greedy optional opening quote is tried first, falling back to no quote
(in which case the quote character is part of the name class). -/
def yarnMatchAt (s : List Char) : Option (String × String × List Char) :=
  match s with
  | '"' :: rest =>
      match yarnAfterQuote rest with
      | some r => some r
      | none => yarnAfterQuote s
  | _ => yarnAfterQuote s

def yarnMatchAt_length {s : List Char} {n v : String} {r : List Char}
    (h : yarnMatchAt s = some (n, v, r)) : r.length < s.length := by
  unfold yarnMatchAt at h
  split at h
  · rename_i rest
    split at h
    · rename_i r0 heq
      rw [h] at heq
      have := yarnAfterQuote_length heq
      simp only [List.length_cons]
      omega
    · exact yarnAfterQuote_length h
  · exact yarnAfterQuote_length h

/-- Fuelled worker for `yarnScan`: a successful match consumes at least
one character (`yarnMatchAt_length`), so fuel `s.length` never runs out
when starting from `s`. -/
def yarnScanF : Nat → List Char → Bool → List (String × String)
  | _, [], _ => []
  | 0, _, _ => []
  | fuel + 1, c :: cs, atLineStart =>
      if atLineStart then
        match yarnMatchAt (c :: cs) with
        | some (n, v, rest) => (n, v) :: yarnScanF fuel rest false
        | none => yarnScanF fuel cs (c == '\n')
      else yarnScanF fuel cs (c == '\n')

/-- The `regex.exec` loop with the `g` and `m` flags: try the pattern at
every line-start position from left to right; after a match, resume
immediately after the matched text. -/
def yarnScan (s : List Char) (atLineStart : Bool) : List (String × String) :=
  yarnScanF s.length s atLineStart

/-- The shared dedup-and-push loop of the yarn and pnpm parsers:
`if (!seen.has(name)) { seen.add(name); root.children.push(...) }`. -/
def dedupSeen (seen : List String) : List (String × String) → List DependencyNode
  | [] => []
  | (n, v) :: rest =>
      if seen.contains n then dedupSeen seen rest
      else DependencyNode.node n v [] :: dedupSeen (n :: seen) rest

/-- `parseYarnLockFile` from remote.ts. -/
def parseYarnLockFile (content : String) : DependencyNode :=
  DependencyNode.node "root" "0.0.0" (dedupSeen [] (yarnScan content.toList true))

/-! ## pnpm lock-file parser (`parsePnpmLockFile`, remote.ts)

Line-oriented: after an un-indented `packages:` line, indented entries
are matched with `/^\s+['"]?\/?([@\w\-./]+)@(\d+\.\d+\.\d+[^'":]*)/`;
a line matching `/^[a-z]/i` ends the block. -/

/-- `\w` (`[A-Za-z0-9_]`). -/
def wordChar (c : Char) : Bool :=
  c.isAlpha || c.isDigit || c = '_'

/-- The name class `[@\w\-./]`. -/
def pnpmClassChar (c : Char) : Bool :=
  c = '@' || wordChar c || c = '-' || c = '.' || c = '/'

/-- `[^'":]`. -/
def pnpmVerEnd (c : Char) : Bool :=
  ¬ (c = Char.ofNat 39) && ¬ (c = '"') && ¬ (c = ':')

/-- The version group `(\d+\.\d+\.\d+[^'":]*)` matched at `t`. -/
def pnpmVer (t : List Char) : Option String :=
  match t.takeWhile Char.isDigit, t.dropWhile Char.isDigit with
  | d1 :: ds1, '.' :: t2 =>
      match t2.takeWhile Char.isDigit, t2.dropWhile Char.isDigit with
      | d2 :: ds2, '.' :: t4 =>
          match t4.takeWhile Char.isDigit with
          | [] => none
          | d3 =>
              some (String.mk ((d1 :: ds1) ++ ['.'] ++ (d2 :: ds2) ++ ['.'] ++ d3
                ++ (t4.dropWhile Char.isDigit).takeWhile pnpmVerEnd))
      | _, _ => none
  | _, _ => none

/-- Greedy backtracking of `([@\w\-./]+)@`: the class run is maximal, so
the literal `@` must sit inside it; split points are tried from the
rightmost `@` leftwards, the name being the nonempty part before the
`@` and the version group matching the rest of the line. -/
def pnpmTrySplit (run after : List Char) : Nat → Option (String × String)
  | 0 => none
  | Nat.succ i =>
      match run[Nat.succ i]? with
      | some c =>
          if c = '@' then
            match pnpmVer (run.drop (Nat.succ i + 1) ++ after) with
            | some ver => some (String.mk (run.take (Nat.succ i)), ver)
            | none => pnpmTrySplit run after i
          else pnpmTrySplit run after i
      | none => pnpmTrySplit run after i

def pnpmName (t : List Char) : Option (String × String) :=
  pnpmTrySplit (t.takeWhile pnpmClassChar) (t.dropWhile pnpmClassChar)
    ((t.takeWhile pnpmClassChar).length - 1)

/-- The optional `\/?` (greedy, with fallback: `/` is in the name
class). -/
def pnpmSlash (t : List Char) : Option (String × String) :=
  match t with
  | '/' :: rest =>
      match pnpmName rest with
      | some r => some r
      | none => pnpmName t
  | _ => pnpmName t

/-- The optional `['"]?` (greedy, with fallback; a quote can belong to
no later part, so the fallback always fails, but it is kept to mirror
the engine). -/
def pnpmQuote (t : List Char) : Option (String × String) :=
  match t with
  | c :: rest =>
      if c = Char.ofNat 39 || c = '"' then
        match pnpmSlash rest with
        | some r => some r
        | none => pnpmSlash t
      else pnpmSlash t
  | [] => pnpmSlash t

/-- One line against the entry regex: `^\s+` then quote/slash/name and
version groups. -/
def pnpmEntry (line : String) : Option (String × String) :=
  match line.toList with
  | c :: rest => if jsIsSpace c then pnpmQuote (rest.dropWhile jsIsSpace) else none
  | [] => none

/-- `/^[a-z]/i`. -/
def lineStartsAlpha (line : String) : Bool :=
  match line.toList with
  | c :: _ => c.isAlpha
  | [] => false

/-- The line loop of `parsePnpmLockFile`: `packages:` turns the flag on
(checked before the break test), a leading letter ends the block, and
inside the block each matching line contributes an entry. -/
def pnpmScan : List String → Bool → List (String × String)
  | [], _ => []
  | line :: rest, inPackages =>
      if startsWithL line "packages:" then pnpmScan rest true
      else if inPackages && lineStartsAlpha line then []
      else if inPackages then
        match pnpmEntry line with
        | some nv => nv :: pnpmScan rest inPackages
        | none => pnpmScan rest inPackages
      else pnpmScan rest inPackages

/-- `parsePnpmLockFile` from remote.ts. -/
def parsePnpmLockFile (content : String) : DependencyNode :=
  DependencyNode.node "root" "0.0.0"
    (dedupSeen [] (pnpmScan (splitLines content) false))

/-! ## `parseLockFile` dispatcher -/

inductive LockType where
  | npm | yarn | pnpm
deriving DecidableEq

/-- `parseLockFile(content, type)` from remote.ts.  The npm branch
consumes the outcome of `JSON.parse(content)`, which the embedding takes
as the separate input `parsedJson`; the yarn and pnpm branches work on
the raw text. -/
def parseLockFile (content : String) (parsedJson : Except String Json) :
    LockType → DependencyNode
  | LockType.npm => parseNpmLockFile parsedJson
  | LockType.yarn => parseYarnLockFile content
  | LockType.pnpm => parsePnpmLockFile content

/-! ## `extractPackages` and `parsePackageJson` (remote.ts) -/

structure RemotePackageInfo where
  name : String
  version : String
  isDev : Bool
deriving DecidableEq

/-- `version.replace(/^[\^~>=<]/, '')`: JS `replace` with a regex
without the `g` flag removes only the first match, and the class has no
quantifier, so exactly one leading operator character is removed. -/
def stripLeadingRangeOp (v : String) : String :=
  match v.toList with
  | [] => v
  | c :: cs =>
      if c = '^' || c = '~' || c = '>' || c = '=' || c = '<' then String.mk cs else v

/-- `extractPackages` from remote.ts; the two records arrive as their
`Object.entries` lists. -/
def extractPackages (dependencies devDependencies : List (String × String)) :
    List RemotePackageInfo :=
  dependencies.map (fun nv => RemotePackageInfo.mk nv.1 (stripLeadingRangeOp nv.2) false)
    ++ devDependencies.map (fun nv => RemotePackageInfo.mk nv.1 (stripLeadingRangeOp nv.2) true)

/-- The string-valued entries of an optional JSON object (`x || {}`
followed by `Object.entries`; non-string dependency versions are outside
the embedded domain). -/
def strEntries (j : Option Json) : List (String × String) :=
  (objEntries (jsOrObj j)).filterMap (fun p =>
    match p.2 with
    | Json.str s => some (p.1, s)
    | _ => none)

/-- `parsePackageJson` from remote.ts, applied to the outcome of
`JSON.parse(content)`; a parse failure degrades to empty records. -/
def parsePackageJson (parsed : Except String Json) :
    List (String × String) × List (String × String) :=
  match parsed with
  | Except.error _ => ([], [])
  | Except.ok pkg =>
      (strEntries (objGetJ pkg "dependencies"), strEntries (objGetJ pkg "devDependencies"))

/-! ## `parseInputType` (remote.ts) -/

/-- `NPM_SITE_REGISTRY_MAP`, in object-literal insertion order. -/
def NPM_SITE_REGISTRY_MAP : List (String × String) :=
  [("npmjs.com", "https://registry.npmjs.org"),
   ("www.npmjs.com", "https://registry.npmjs.org"),
   ("npmmirror.com", "https://registry.npmmirror.com"),
   ("npm.taobao.org", "https://registry.npmmirror.com"),
   ("yarnpkg.com", "https://registry.yarnpkg.com")]

/-- JS regex line terminators (not matched by `.`). -/
def isLineTerm (c : Char) : Bool :=
  c = '\n' || c = '\r' || c = Char.ofNat 8232 || c = Char.ofNat 8233

/-- JS `String.prototype.trim` (whitespace and line terminators at both
ends; ASCII plus NBSP/BOM). -/
def jsTrimChar (c : Char) : Bool :=
  jsIsSpace c || isLineTerm c || c = Char.ofNat 160 || c = Char.ofNat 65279

def jsTrim (s : String) : String :=
  String.mk (((s.toList.dropWhile jsTrimChar).reverse.dropWhile jsTrimChar).reverse)

/-- `domain.replace('.', '\\.')` inside a regex: the first dot is
escaped (a literal), every later dot stays a regex wildcard.
`some c` is a literal, `none` the wildcard. -/
def domainPattern : List Char → Bool → List (Option Char)
  | [], _ => []
  | c :: cs, seenDot =>
      if c = '.' then
        (if seenDot then none else some '.') :: domainPattern cs true
      else some c :: domainPattern cs seenDot

/-- Match a literal character sequence, returning the rest. -/
def matchLits : List Char → List Char → Option (List Char)
  | [], s => some s
  | _ :: _, [] => none
  | l :: ls, c :: cs => if c = l then matchLits ls cs else none

/-- Match a literal/wildcard pattern, returning the rest. -/
def matchDomain : List (Option Char) → List Char → Option (List Char)
  | [], s => some s
  | _ :: _, [] => none
  | p :: ps, c :: cs =>
      match p with
      | some l => if c = l then matchDomain ps cs else none
      | none => if isLineTerm c then none else matchDomain ps cs

/-- One site pattern `^https?:\/\/<domain>\/package\/(.+)$` against the
whole trimmed input; on success returns the captured package name. -/
def matchSite (domain : String) (s : List Char) : Option String :=
  match matchLits ['h', 't', 't', 'p'] s with
  | none => none
  | some s1 =>
      let afterScheme :=
        match s1 with
        | 's' :: s2 =>
            match matchLits [':', '/', '/'] s2 with
            | some s3 => some s3
            | none => matchLits [':', '/', '/'] s1
        | _ => matchLits [':', '/', '/'] s1
      match afterScheme with
      | none => none
      | some s3 =>
          match matchDomain (domainPattern domain.toList false) s3 with
          | none => none
          | some s4 =>
              match matchLits ['/', 'p', 'a', 'c', 'k', 'a', 'g', 'e', '/'] s4 with
              | none => none
              | some s5 =>
                  if s5.isEmpty then none
                  else if s5.all (fun c => !(isLineTerm c)) then some (String.mk s5)
                  else none

/-- The `for (const [domain, registry] of Object.entries(...))` loop:
first matching site pattern wins. -/
def siteLoop (t : List Char) : List (String × String) → Option (String × String)
  | [] => none
  | (domain, registry) :: rest =>
      match matchSite domain t with
      | some value => some (value, registry)
      | none => siteLoop t rest

/-- `[a-z0-9-~]` with the `i` flag. -/
def nameClass1 (c : Char) : Bool :=
  c.isAlpha || c.isDigit || c = '-' || c = '~'

/-- `[a-z0-9-._~]` with the `i` flag. -/
def nameClass2 (c : Char) : Bool :=
  nameClass1 c || c = '.' || c = '_'

/-- `[a-z0-9-~][a-z0-9-._~]*` up to the end of the input. -/
def namePart (t : List Char) : Bool :=
  match t with
  | [] => false
  | c :: cs => nameClass1 c && cs.all nameClass2

/-- The package-name grammar of `parseInputType`:
`/^(@[a-z0-9-~][a-z0-9-._~]*\/)?[a-z0-9-~][a-z0-9-._~]*$/i`. -/
def npmNameTest (t : List Char) : Bool :=
  match t with
  | '@' :: c :: cs =>
      nameClass1 c &&
        (match cs.dropWhile nameClass2 with
         | '/' :: rest => namePart rest
         | _ => false)
  | _ => namePart t

inductive InputType where
  | npmPackage | npmSiteUrl | gitUrl
deriving DecidableEq

structure InputParse where
  type : InputType
  value : String
  registry : Option String
deriving DecidableEq

/-- `parseInputType` from remote.ts: known package-site URLs first, then
HTTP(S)/SSH prefixes as git URLs, then the bare package-name grammar,
defaulting to a git URL. -/
def parseInputType (input : String) : InputParse :=
  let trimmed := jsTrim input
  match siteLoop trimmed.toList NPM_SITE_REGISTRY_MAP with
  | some vr => InputParse.mk InputType.npmSiteUrl vr.1 (some vr.2)
  | none =>
      if startsWithL trimmed "http://" || startsWithL trimmed "https://"
          || startsWithL trimmed "git@" then
        InputParse.mk InputType.gitUrl trimmed none
      else if npmNameTest trimmed.toList then
        InputParse.mk InputType.npmPackage trimmed none
      else InputParse.mk InputType.gitUrl trimmed none

/-! ## Severity normalization (remote.ts `mapOsvSeverity`, adapters'
audit loops) -/

/-- `mapOsvSeverity` from remote.ts.  `undefined` and `''` are falsy and
yield `moderate`; recognized names map to themselves (`medium` to
`moderate`); every other non-empty value falls through to `low`. -/
def mapOsvSeverity (severity : Option String) : String :=
  match severity with
  | none => "moderate"
  | some sv =>
      if sv = "" then "moderate"
      else
        if jsToLower sv = "critical" then "critical"
        else if jsToLower sv = "high" then "high"
        else if jsToLower sv = "moderate" || jsToLower sv = "medium" then "moderate"
        else "low"

/-- `VulnerabilityInfo` from the shared types; `severity` is kept as a
string because the adapters' `(x.severity as ...) || 'moderate'` is a
compile-time cast that passes any runtime string through. -/
structure VulnerabilityInfo where
  id : String
  title : String
  severity : String
  pkg : String
  version : String
  recommendation : String
  url : Option String
deriving DecidableEq

/-- An element of `vuln.via` in npm-v7 audit JSON: either a bare string
(a dependent package name) or an advisory object. -/
inductive AuditVia where
  | strRef (name : String) : AuditVia
  | objRef (source : Option String) (cve : Option String)
      (title : Option String) (url : Option String) : AuditVia

/-- `NpmAuditVulnerability` as used by the adapters' audit loops.
`fixAvailable` is kept only in its object form (its boolean form takes
the same `null` branch as absence in the `typeof ... === 'object'`
test). -/
structure NpmAuditVulnerability where
  severity : Option String
  via : List AuditVia
  range : Option String
  fixAvailable : Option (String × String)

/-- The npm-v7 branch of the adapters' audit normalizer (bun.ts lines
273-294; the npm/yarn/pnpm adapters share the pattern): one
`VulnerabilityInfo` per object-shaped `via` cause with a truthy title. -/
def viaVulns (pkgName : String) (vuln : NpmAuditVulnerability) : List VulnerabilityInfo :=
  if vuln.via.length = 0 then []
  else vuln.via.filterMap (fun cause =>
    match cause with
    | AuditVia.strRef _ => none
    | AuditVia.objRef source cve title url =>
        match title with
        | none => none
        | some t =>
            if t = "" then none
            else some (VulnerabilityInfo.mk
              (jsOrStr source (jsOrStr cve "unknown"))
              t
              (jsOrStr vuln.severity "moderate")
              pkgName
              (jsOrStr vuln.range "*")
              (match vuln.fixAvailable with
               | some nv => "Update to " ++ nv.1 ++ "@" ++ nv.2
               | none => "Update to latest version")
              url))

/-- `NpmAuditAdvisory` as used by the v6 branch. -/
structure NpmAuditAdvisory where
  id : Option String
  title : Option String
  severity : Option String
  module_name : Option String
  vulnerable_versions : Option String
  recommendation : Option String
  url : Option String

/-- The npm-v6 branch of the audit normalizer (bun.ts lines 297-309). -/
def advisoryVuln (adv : NpmAuditAdvisory) : VulnerabilityInfo :=
  VulnerabilityInfo.mk
    (jsOrStr adv.id "unknown")
    (jsOrStr adv.title "Unknown vulnerability")
    (jsOrStr adv.severity "moderate")
    (jsOrStr adv.module_name "unknown")
    (jsOrStr adv.vulnerable_versions "*")
    (jsOrStr adv.recommendation "Update to latest version")
    adv.url

/-- The full vulnerability list built by the adapters' audit from the
two possible payload shapes. -/
def auditNormalize (vulns : List (String × NpmAuditVulnerability))
    (advisories : List NpmAuditAdvisory) : List VulnerabilityInfo :=
  (vulns.map (fun p => viaVulns p.1 p.2)).flatten ++ advisories.map advisoryVuln

/-! ## `checkUpdates` (remote.ts) -/

/-- The outcome of one `fetch` of registry metadata: a thrown
network/parse error, a non-2xx response, or a parsed JSON body. -/
inductive FetchResult where
  | fetchError : FetchResult
  | notOk : FetchResult
  | ok (body : Json) : FetchResult

structure RemoteUpdateInfo where
  name : String
  currentVersion : String
  latestVersion : String
  hasUpdate : Bool
deriving DecidableEq

/-- The fail-safe entry used on a non-ok response and in the catch
handler. -/
def failSafeUpdate (pkg : String × String) : RemoteUpdateInfo :=
  RemoteUpdateInfo.mk pkg.1 pkg.2 pkg.2 false

/-- One package's branch of `checkUpdates`: its own fetch decides its
entry, every failure path yielding the fail-safe default. -/
def checkOneUpdate (fetch : String → FetchResult) (pkg : String × String) :
    RemoteUpdateInfo :=
  match fetch pkg.1 with
  | FetchResult.fetchError => failSafeUpdate pkg
  | FetchResult.notOk => failSafeUpdate pkg
  | FetchResult.ok data =>
      let latest := jsStrOr
        (match objGetJ data "dist-tags" with
         | some dt => objGetJ dt "latest"
         | none => none) pkg.2
      RemoteUpdateInfo.mk pkg.1 pkg.2 latest
        ((latest != pkg.2) && !(strIncludes pkg.2 latest))

/-- `checkUpdates` from remote.ts: `Promise.all` over per-package
callbacks, each with its own catch, so the batch is a pointwise map and
never rejects. -/
def checkUpdates (fetch : String → FetchResult) (packages : List (String × String)) :
    List RemoteUpdateInfo :=
  packages.map (checkOneUpdate fetch)

/-! ## Security validators (utils/security.ts) -/

/-- `DANGEROUS_CHARS`. -/
def dangerousChar (c : Char) : Bool :=
  c = ';' || c = '&' || c = '|' || c = Char.ofNat 96 || c = '$' || c = '(' || c = ')' ||
  c = Char.ofNat 123 || c = Char.ofNat 125 || c = '[' || c = ']' || c = '<' || c = '>' ||
  c = '!' || c = '#' || c = '*' || c = '?' || c = '\\' || c = Char.ofNat 39 || c = '"'

/-- The version-suffix class `[a-z0-9^~>=<.*-]` with the `i` flag. -/
def versionClass (c : Char) : Bool :=
  c.isAlpha || c.isDigit || c = '^' || c = '~' || c = '>' || c = '=' || c = '<'
    || c = '.' || c = '*' || c = '-'

/-- `[a-z0-9-~][a-z0-9-._~]*(@[a-z0-9^~>=<.*-]+)?$`. -/
def validNameTail (t : List Char) : Bool :=
  match t with
  | [] => false
  | c :: cs =>
      nameClass1 c &&
        (match cs.dropWhile nameClass2 with
         | [] => true
         | '@' :: vs => !vs.isEmpty && vs.all versionClass
         | _ => false)

/-- `VALID_PACKAGE_NAME`:
`/^(@[a-z0-9-~][a-z0-9-._~]*\/)?[a-z0-9-~][a-z0-9-._~]*(@[a-z0-9^~>=<.*-]+)?$/i`. -/
def validNameTest (t : List Char) : Bool :=
  match t with
  | '@' :: c :: cs =>
      nameClass1 c &&
        (match cs.dropWhile nameClass2 with
         | '/' :: rest => validNameTail rest
         | _ => false)
  | _ => validNameTail t

/-- `validatePackageName` from utils/security.ts; a thrown error is the
returned message. -/
def validatePackageName (name : String) : Option String :=
  if name = "" then some "Package name is required"
  else if name.length > 214 then some "Package name too long"
  else if name.toList.any dangerousChar then
    some "Invalid package name: contains dangerous characters"
  else if !(validNameTest name.toList) then
    some ("Invalid package name format: " ++ name)
  else none

/-- `validatePackageNames` from utils/security.ts: the length checks run
before any per-name validation, and the first offending name throws. -/
def validatePackageNames (packages : List String) : Option String :=
  if packages.length = 0 then some "Packages array is required"
  else if packages.length > 100 then some "Too many packages (max 100)"
  else packages.findSome? validatePackageName

/-- The scheme part of a URL text: `ALPHA (ALPHA|DIGIT|+|-|.)* :`. -/
def urlScheme (url : String) : Option String :=
  match url.toList with
  | [] => none
  | c :: cs =>
      if c.isAlpha then
        match cs.dropWhile (fun ch => ch.isAlpha || ch.isDigit || ch = '+'
            || ch = '-' || ch = '.') with
        | ':' :: _ =>
            some (String.mk (c :: cs.takeWhile (fun ch => ch.isAlpha || ch.isDigit
              || ch = '+' || ch = '-' || ch = '.')) ++ ":")
        | _ => none
      else none

/-- `validateUrl` from utils/security.ts.  The `new URL(url)` WHATWG
parse is approximated by its scheme recognition: a text with a syntactic
scheme parses and exposes it as `protocol`; the code then accepts
exactly `http:`/`https:`.  No checked claim depends on the branches of
this function. -/
def validateUrl (url : String) : Option String :=
  if url = "" then some "URL is required"
  else if url.toList.any dangerousChar then some "URL contains dangerous characters"
  else
    match urlScheme url with
    | some p =>
        if p = "http:" || p = "https:" then none
        else some "Only HTTP/HTTPS URLs are allowed"
    | none => some "Invalid URL format"

/-! ## Progress traces of the mutating adapter operations

A run of `install`/`uninstall`/`update` is modelled as the list of its
observable actions: each `onProgress` call (with the progress/status
pair the shared record holds at that moment) and the subprocess spawn.
The subprocess's behaviour is an input: the list of stdout/stderr data
events and whether it exits successfully.  On failure `await` rejects,
so the trailing completion block never runs. -/

inductive OpStatus where
  | pending | running | completed | failed
deriving DecidableEq

inductive OpEvent where
  | stdoutData | stderrData
deriving DecidableEq

structure Emit where
  progress : Nat
  status : OpStatus
deriving DecidableEq

inductive TraceItem where
  | emit (e : Emit) : TraceItem
  | spawn (cmd : String) (args : List String) : TraceItem
deriving DecidableEq

/-- The stdout/stderr handlers: stdout advances
`progress = Math.min(progress + step, 90)` and emits; stderr emits the
unchanged record. -/
def streamEmits (step : Nat) : List OpEvent → Nat → List Emit
  | [], _ => []
  | OpEvent.stdoutData :: evs, p =>
      Emit.mk (min (p + step) 90) OpStatus.running
        :: streamEmits step evs (min (p + step) 90)
  | OpEvent.stderrData :: evs, p =>
      Emit.mk p OpStatus.running :: streamEmits step evs p

/-- The post-validation body of a streaming install: initial emit at 0 /
running, spawn, the stream emits, and on success the final emit at 100 /
completed; on failure the rejection carries an error. -/
def installTrace (cmd : String) (args : List String) (step : Nat)
    (events : List OpEvent) (procOk : Bool) : List TraceItem × Option String :=
  let pre := [TraceItem.emit (Emit.mk 0 OpStatus.running), TraceItem.spawn cmd args]
  let mids := (streamEmits step events 0).map TraceItem.emit
  if procOk then
    (pre ++ mids ++ [TraceItem.emit (Emit.mk 100 OpStatus.completed)], none)
  else (pre ++ mids, some "subprocess failed")

/-- The post-validation body of a non-streaming operation (uninstall /
update attach no data handlers). -/
def simpleOpTrace (cmd : String) (args : List String) (procOk : Bool) :
    List TraceItem × Option String :=
  let pre := [TraceItem.emit (Emit.mk 0 OpStatus.running), TraceItem.spawn cmd args]
  if procOk then (pre ++ [TraceItem.emit (Emit.mk 100 OpStatus.completed)], none)
  else (pre, some "subprocess failed")

structure InstallOptions where
  dev : Bool
  global : Bool
  workspace : Bool
  filter : Option String
  registry : Option String

structure UninstallOptions where
  global : Bool
  workspace : Bool
  filter : Option String

/-- `BunAdapter.install`: names validated first, then the registry URL;
stdout advances progress by 20. -/
def bunInstall (packages : List String) (options : InstallOptions)
    (events : List OpEvent) (procOk : Bool) : List TraceItem × Option String :=
  match validatePackageNames packages with
  | some e => ([], some e)
  | none =>
      match (match options.registry with
             | some r => validateUrl r
             | none => none) with
      | some e => ([], some e)
      | none =>
          let args := ("add" :: packages)
            ++ (if options.dev then ["--dev"] else [])
            ++ (if options.global then ["-g"] else [])
          installTrace "bun" args 20 events procOk

/-- `NpmAdapter.install`: stdout advances progress by 10. -/
def npmInstall (packages : List String) (options : InstallOptions)
    (events : List OpEvent) (procOk : Bool) : List TraceItem × Option String :=
  match validatePackageNames packages with
  | some e => ([], some e)
  | none =>
      match (match options.registry with
             | some r => validateUrl r
             | none => none) with
      | some e => ([], some e)
      | none =>
          let args := ("install" :: packages)
            ++ (if options.dev then ["--save-dev"] else [])
            ++ (if options.global then ["-g"] else [])
            ++ (if options.workspace then ["-w"] else [])
            ++ (match options.filter with
                | some f => ["-w", f]
                | none => [])
            ++ (match options.registry with
                | some r => ["--registry", r]
                | none => [])
          installTrace "npm" args 10 events procOk

/-- `BunAdapter.uninstall`. -/
def bunUninstall (packages : List String) (options : UninstallOptions)
    (procOk : Bool) : List TraceItem × Option String :=
  match validatePackageNames packages with
  | some e => ([], some e)
  | none =>
      let args := ("remove" :: packages) ++ (if options.global then ["-g"] else [])
      simpleOpTrace "bun" args procOk

/-- `NpmAdapter.uninstall`. -/
def npmUninstall (packages : List String) (options : UninstallOptions)
    (procOk : Bool) : List TraceItem × Option String :=
  match validatePackageNames packages with
  | some e => ([], some e)
  | none =>
      let args := ("uninstall" :: packages)
        ++ (if options.global then ["-g"] else [])
        ++ (if options.workspace then ["-w"] else [])
        ++ (match options.filter with
            | some f => ["-w", f]
            | none => [])
      simpleOpTrace "npm" args procOk

/-- `BunAdapter.update`: names are validated only when a non-empty list
is given. -/
def bunUpdate (packages : List String) (procOk : Bool) :
    List TraceItem × Option String :=
  match (if packages.length > 0 then validatePackageNames packages else none) with
  | some e => ([], some e)
  | none =>
      let args := if packages.length > 0 then "update" :: packages else ["update"]
      simpleOpTrace "bun" args procOk

/-- `NpmAdapter.update`. -/
def npmUpdate (packages : List String) (procOk : Bool) :
    List TraceItem × Option String :=
  match (if packages.length > 0 then validatePackageNames packages else none) with
  | some e => ([], some e)
  | none =>
      let args := if packages.length > 0 then "update" :: packages else ["update"]
      simpleOpTrace "npm" args procOk

/-- The progress emissions of a run, in order. -/
def emitted (t : List TraceItem × Option String) : List Emit :=
  t.1.filterMap (fun item =>
    match item with
    | TraceItem.emit e => some e
    | TraceItem.spawn _ _ => none)

/-- Whether the final emission (when any) reports 100 exactly when it
reports completion. -/
def lastEmitConsistent (l : List Emit) : Bool :=
  match l.getLast? with
  | none => true
  | some e => (e.progress == 100) == (e.status == OpStatus.completed)

/-- The emitted progress values never decrease. -/
def progressMono (l : List Emit) : Prop :=
  List.Chain' (fun a b => a.progress ≤ b.progress) l

/-- The progress protocol of one mutating operation: the emitted
progress values are non-decreasing, and the final emission (when any)
reports progress 100 exactly when it reports status `completed`. -/
def progressOk (t : List TraceItem × Option String) : Prop :=
  progressMono (emitted t) ∧ lastEmitConsistent (emitted t) = true

/-! ## `analyzeGitRepo` (remote.ts) -/

structure RemoteAnalysisResult where
  sourceType : String
  packages : List RemotePackageInfo
  dependencyTree : Option DependencyNode
  vulnerabilities : List VulnerabilityInfo
  updates : List RemoteUpdateInfo
  lockFileType : Option LockType

/-- `packages.slice(0, 50).map(p => ({name, version}))`. -/
def packagesForCheck (packages : List RemotePackageInfo) : List (String × String) :=
  (packages.take 50).map (fun p => (p.name, p.version))

/-- `analyzeGitRepo` from remote.ts, after `parseGitUrl` has succeeded.
The remote fetches are inputs: the manifest fetch result (`null` on any
non-success, per `fetchRepoFile`), the lock-file detection result, the
`JSON.parse` outcomes of both texts, the normalized OSV response, and
the registry fetcher for `checkUpdates`.  A missing (or falsy) manifest
throws before anything else is computed. -/
def analyzeGitRepo (manifest : Option String) (manifestJson : Except String Json)
    (lockFile : Option (LockType × String)) (lockJson : Except String Json)
    (osvVulns : List VulnerabilityInfo) (fetch : String → FetchResult) :
    Except String RemoteAnalysisResult :=
  match manifest with
  | none => Except.error "package.json not found in repository"
  | some content =>
      if content = "" then Except.error "package.json not found in repository"
      else
        let dd := parsePackageJson manifestJson
        let packages := extractPackages dd.1 dd.2
        let tree :=
          match lockFile with
          | some tc => some (parseLockFile tc.2 lockJson tc.1)
          | none => none
        let lt :=
          match lockFile with
          | some tc => some tc.1
          | none => none
        Except.ok (RemoteAnalysisResult.mk "git" packages tree osvVulns
          (checkUpdates fetch (packagesForCheck packages)) lt)

/-! # Theorems -/

/-! ## C3: missing manifest is a hard failure -/

/-- C3: for every repository input, when the repository's `package.json`
manifest cannot be fetched (the fetcher returns `null`), `analyzeGitRepo`
throws instead of returning a degraded result with empty packages. -/
theorem analyzeGitRepo_missing_manifest (manifestJson : Except String Json)
    (lockFile : Option (LockType × String)) (lockJson : Except String Json)
    (osvVulns : List VulnerabilityInfo) (fetch : String → FetchResult) :
    analyzeGitRepo none manifestJson lockFile lockJson osvVulns fetch
      = Except.error "package.json not found in repository" := rfl

/-! ## C7: leading range-operator stripping -/

/-- C7: `extractPackages` strips exactly ONE leading operator character
(`version.replace(/^[\^~>=<]/, '')` has no quantifier), so `'^1.0.0'`
becomes `'1.0.0'` but `'>=1.2.3'` becomes `'=1.2.3'`, contradicting the
documented behaviour that the entire leading operator run is removed. -/
theorem extractPackages_range_operator :
    extractPackages [("a", ">=1.2.3"), ("b", "^1.0.0")] []
      = [RemotePackageInfo.mk "a" "=1.2.3" false,
         RemotePackageInfo.mk "b" "1.0.0" false] := by
  decide

/-! ## C1: severity normalization -/

/-- C1 counterexample: an unrecognized non-empty severity is NOT
normalized to `moderate`: `mapOsvSeverity` sends it to `low`, and the
adapters' audit normalizer passes it through unchanged. -/
theorem mapOsvSeverity_unrecognized_cex :
    mapOsvSeverity (some "severe") = "low"
    ∧ ¬ (mapOsvSeverity (some "severe") = "moderate")
    ∧ (advisoryVuln
        (NpmAuditAdvisory.mk none none (some "severe") none none none none)).severity
      = "severe" := by
  decide

/-- C1 (amended): a missing or empty raw severity normalizes to
`moderate` both in the adapters' audit normalizer (whose severity field
is `x.severity || 'moderate'`, embedded as `jsOrStr`) and in
`mapOsvSeverity`; a non-empty severity outside the recognized names maps
to `low` in `mapOsvSeverity` and passes through the audit normalizer
unchanged. -/
theorem severity_normalization :
    (mapOsvSeverity none = "moderate" ∧ mapOsvSeverity (some "") = "moderate")
    ∧ (∀ s : String, ¬ (s = "") → ¬ (jsToLower s = "critical") → ¬ (jsToLower s = "high")
        → ¬ (jsToLower s = "moderate") → ¬ (jsToLower s = "medium")
        → mapOsvSeverity (some s) = "low")
    ∧ (∀ adv : NpmAuditAdvisory,
        (advisoryVuln adv).severity = jsOrStr adv.severity "moderate")
    ∧ (∀ pkgName vuln vi, vi ∈ viaVulns pkgName vuln
        → vi.severity = jsOrStr vuln.severity "moderate")
    ∧ (jsOrStr none "moderate" = "moderate" ∧ jsOrStr (some "") "moderate" = "moderate")
    ∧ (∀ s : String, ¬ (s = "") → jsOrStr (some s) "moderate" = s) := by
  refine ⟨⟨rfl, rfl⟩, ?_, fun adv => rfl, ?_, ⟨rfl, rfl⟩, ?_⟩
  · intro s h0 h1 h2 h3 h4
    simp [mapOsvSeverity, h0, h1, h2, h3, h4]
  · intro pkgName vuln vi hmem
    unfold viaVulns at hmem
    split at hmem
    · simp at hmem
    · rw [List.mem_filterMap] at hmem
      obtain ⟨cause, _, hc⟩ := hmem
      match cause with
      | AuditVia.strRef _ => simp at hc
      | AuditVia.objRef source cve title url =>
          match title with
          | none => simp at hc
          | some t =>
              simp only at hc
              split at hc
              · simp at hc
              · simp only [Option.some.injEq] at hc
                subst hc
                rfl
  · intro s h
    simp [jsOrStr, h]

/-- Concrete instantiation of `severity_normalization`. -/
theorem severity_normalization_witness :
    mapOsvSeverity (some "unknown") = "low"
    ∧ (advisoryVuln (NpmAuditAdvisory.mk none none none none none none none)).severity
        = "moderate" :=
  ⟨severity_normalization.2.1 "unknown" (by decide) (by decide) (by decide)
      (by decide) (by decide),
   (severity_normalization.2.2.1 (NpmAuditAdvisory.mk none none none none none none none)).trans rfl⟩

/-! ## C8: input classification -/

/-- C8: `parseInputType` classifies the npm site URL
`https://www.npmjs.com/package/lodash` as `npm-site-url` with value
`lodash` and the npm registry, and any HTTP(S) input the site loop does
not match is classified `git-url`. -/
theorem parseInputType_classification :
    parseInputType "https://www.npmjs.com/package/lodash"
      = InputParse.mk InputType.npmSiteUrl "lodash" (some "https://registry.npmjs.org")
    ∧ (∀ input : String,
        (startsWithL (jsTrim input) "http://" = true
          ∨ startsWithL (jsTrim input) "https://" = true) →
        siteLoop (jsTrim input).toList NPM_SITE_REGISTRY_MAP = none →
        (parseInputType input).type = InputType.gitUrl) := by
  constructor
  · decide
  · intro input hpre hsite
    unfold parseInputType
    simp only [hsite]
    rcases hpre with h | h <;> simp [h]

/-- Concrete instantiation of `parseInputType_classification`. -/
theorem parseInputType_classification_witness :
    (parseInputType "https://example.com/repo").type = InputType.gitUrl :=
  parseInputType_classification.2 "https://example.com/repo"
    (Or.inr (by decide)) (by decide)

/-! ## C9: fail-safe, failure-isolated update checking -/

/-- C9: in `checkUpdates`, a package whose registry fetch fails (thrown
error or non-success response) yields the fail-safe entry
(`latestVersion` = declared version, `hasUpdate` = false); the batch
never rejects and every other entry is exactly that package's own
independent result. -/
theorem checkUpdates_fail_isolated (fetch : String → FetchResult)
    (packages : List (String × String)) (i : Nat) (hi : i < packages.length)
    (hf : fetch (packages[i].1) = FetchResult.fetchError
        ∨ fetch (packages[i].1) = FetchResult.notOk) :
    (checkUpdates fetch packages).length = packages.length
    ∧ (checkUpdates fetch packages)[i]?
        = some (RemoteUpdateInfo.mk packages[i].1 packages[i].2 packages[i].2 false)
    ∧ (∀ j : Nat, (checkUpdates fetch packages)[j]?
        = Option.map (checkOneUpdate fetch) packages[j]?) := by
  refine ⟨by simp [checkUpdates], ?_, ?_⟩
  · have h1 : (checkUpdates fetch packages)[i]?
        = some (checkOneUpdate fetch packages[i]) := by
      simp [checkUpdates, List.getElem?_eq_getElem hi]
    rw [h1]
    rcases hf with h | h <;> simp [checkOneUpdate, h, failSafeUpdate]
  · intro j
    simp [checkUpdates]

/-- Concrete instantiation of `checkUpdates_fail_isolated`. -/
theorem checkUpdates_fail_isolated_witness :
    (checkUpdates (fun _ => FetchResult.notOk) [("a", "1.0.0")]).length = 1
    ∧ (checkUpdates (fun _ => FetchResult.notOk) [("a", "1.0.0")])[0]?
        = some (RemoteUpdateInfo.mk "a" "1.0.0" "1.0.0" false) :=
  ⟨(checkUpdates_fail_isolated (fun _ => FetchResult.notOk) [("a", "1.0.0")] 0
      (by decide) (Or.inr rfl)).1,
   (checkUpdates_fail_isolated (fun _ => FetchResult.notOk) [("a", "1.0.0")] 0
      (by decide) (Or.inr rfl)).2.1⟩

/-! ## C2 / C10: progress traces of the mutating operations -/

theorem streamEmits_bounds (step : Nat) : ∀ (evs : List OpEvent) (p : Nat), p ≤ 90 →
    ∀ e ∈ streamEmits step evs p, e.progress ≤ 90 ∧ e.status = OpStatus.running := by
  intro evs
  induction evs with
  | nil => intro p _ e he; simp [streamEmits] at he
  | cons ev rest ih =>
      intro p hp e he
      match ev with
      | OpEvent.stdoutData =>
          simp only [streamEmits] at he
          rcases List.mem_cons.mp he with rfl | hm
          · exact ⟨Nat.min_le_right _ _, rfl⟩
          · exact ih _ (Nat.min_le_right _ _) e hm
      | OpEvent.stderrData =>
          simp only [streamEmits] at he
          rcases List.mem_cons.mp he with rfl | hm
          · exact ⟨hp, rfl⟩
          · exact ih _ hp e hm

theorem streamEmits_chain (step : Nat) : ∀ (evs : List OpEvent) (p : Nat), p ≤ 90 →
    List.Chain' (fun a b => a.progress ≤ b.progress)
      (Emit.mk p OpStatus.running :: streamEmits step evs p) := by
  intro evs
  induction evs with
  | nil => intro p _; simp [streamEmits]
  | cons ev rest ih =>
      intro p hp
      match ev with
      | OpEvent.stdoutData =>
          simp only [streamEmits]
          rw [List.chain'_cons]
          exact ⟨Nat.le_min.mpr ⟨Nat.le_add_right p step, hp⟩,
            ih _ (Nat.min_le_right _ _)⟩
      | OpEvent.stderrData =>
          simp only [streamEmits]
          rw [List.chain'_cons]
          exact ⟨Nat.le_refl p, ih _ hp⟩

theorem lastEmitConsistent_of_bounds (x : Emit) (l : List Emit)
    (hx : x.progress ≤ 90 ∧ x.status = OpStatus.running)
    (h : ∀ e ∈ l, e.progress ≤ 90 ∧ e.status = OpStatus.running) :
    lastEmitConsistent (x :: l) = true := by
  unfold lastEmitConsistent
  cases hlast : (x :: l).getLast? with
  | none => rfl
  | some e =>
      have hmem : e ∈ x :: l := List.mem_of_mem_getLast? hlast
      have he : e.progress ≤ 90 ∧ e.status = OpStatus.running := by
        rcases List.mem_cons.mp hmem with rfl | hm
        · exact hx
        · exact h e hm
      have h1 : (e.progress == 100) = false := by
        have : ¬ (e.progress = 100) := by omega
        simpa using this
      have h2 : (e.status == OpStatus.completed) = false := by
        rw [he.2]; rfl
      show ((e.progress == 100) == (e.status == OpStatus.completed)) = true
      rw [h1, h2]
      rfl

theorem emitted_installTrace (cmd : String) (args : List String) (step : Nat)
    (events : List OpEvent) (procOk : Bool) :
    emitted (installTrace cmd args step events procOk)
      = Emit.mk 0 OpStatus.running :: (streamEmits step events 0
          ++ (if procOk then [Emit.mk 100 OpStatus.completed] else [])) := by
  cases procOk <;>
    simp [emitted, installTrace, List.filterMap_append, List.filterMap_map,
      Function.comp_def]

theorem installTrace_progressOk (cmd : String) (args : List String) (step : Nat)
    (events : List OpEvent) (procOk : Bool) :
    progressOk (installTrace cmd args step events procOk) := by
  constructor
  · unfold progressMono
    rw [emitted_installTrace]
    cases procOk
    · simpa using streamEmits_chain step events 0 (by omega)
    · simp only [if_pos]
      rw [← List.cons_append]
      apply List.Chain'.append
      · exact streamEmits_chain step events 0 (by omega)
      · simp
      · intro x hx y hy
        simp only [List.head?_cons, Option.mem_def, Option.some.injEq] at hy
        subst hy
        have hx2 := List.mem_of_mem_getLast? hx
        rcases List.mem_cons.mp hx2 with rfl | hm
        · simp
        · have := (streamEmits_bounds step events 0 (by omega) x hm).1
          show x.progress ≤ 100
          omega
  · rw [emitted_installTrace]
    cases procOk
    · rw [if_neg (by simp), List.append_nil]
      exact lastEmitConsistent_of_bounds _ _ ⟨by decide, rfl⟩
        (streamEmits_bounds step events 0 (by omega))
    · unfold lastEmitConsistent
      rw [if_pos rfl, ← List.cons_append, List.getLast?_concat]
      rfl

theorem simpleOpTrace_progressOk (cmd : String) (args : List String) (procOk : Bool) :
    progressOk (simpleOpTrace cmd args procOk) := by
  cases procOk <;>
    constructor <;>
      simp [progressMono, simpleOpTrace, emitted, lastEmitConsistent,
        List.chain'_cons, List.chain'_singleton]

theorem progressOk_nil (e : Option String) : progressOk ([], e) :=
  ⟨List.chain'_nil, rfl⟩

/-- C2: for every single mutating adapter operation (install, uninstall,
update; bun and npm adapters), the sequence of progress values passed to
the `onProgress` sink is non-decreasing, and the final observed progress
equals 100 exactly when the final observed status is `completed`. -/
theorem mutating_ops_progress (packages : List String) (options : InstallOptions)
    (uoptions : UninstallOptions) (events : List OpEvent) (procOk : Bool) :
    progressOk (bunInstall packages options events procOk)
    ∧ progressOk (npmInstall packages options events procOk)
    ∧ progressOk (bunUninstall packages uoptions procOk)
    ∧ progressOk (npmUninstall packages uoptions procOk)
    ∧ progressOk (bunUpdate packages procOk)
    ∧ progressOk (npmUpdate packages procOk) := by
  refine ⟨?_, ?_, ?_, ?_, ?_, ?_⟩
  · unfold bunInstall
    cases validatePackageNames packages with
    | some e => exact progressOk_nil _
    | none =>
        cases (match options.registry with
               | some r => validateUrl r
               | none => none) with
        | some e => exact progressOk_nil _
        | none => exact installTrace_progressOk _ _ _ _ _
  · unfold npmInstall
    cases validatePackageNames packages with
    | some e => exact progressOk_nil _
    | none =>
        cases (match options.registry with
               | some r => validateUrl r
               | none => none) with
        | some e => exact progressOk_nil _
        | none => exact installTrace_progressOk _ _ _ _ _
  · unfold bunUninstall
    cases validatePackageNames packages with
    | some e => exact progressOk_nil _
    | none => exact simpleOpTrace_progressOk _ _ _
  · unfold npmUninstall
    cases validatePackageNames packages with
    | some e => exact progressOk_nil _
    | none => exact simpleOpTrace_progressOk _ _ _
  · unfold bunUpdate
    cases (if packages.length > 0 then validatePackageNames packages else none) with
    | some e => exact progressOk_nil _
    | none => exact simpleOpTrace_progressOk _ _ _
  · unfold npmUpdate
    cases (if packages.length > 0 then validatePackageNames packages else none) with
    | some e => exact progressOk_nil _
    | none => exact simpleOpTrace_progressOk _ _ _

/-- C10: install and uninstall with an empty package list or more than
100 names reject with the validation error produced by the shared
`validatePackageNames` check, before any progress emission and before
any subprocess spawn (the trace is empty). -/
theorem install_uninstall_validation_gate (packages : List String)
    (options : InstallOptions) (uoptions : UninstallOptions)
    (events : List OpEvent) (procOk : Bool)
    (h : packages = [] ∨ 100 < packages.length) :
    validatePackageNames packages ≠ none
    ∧ bunInstall packages options events procOk = ([], validatePackageNames packages)
    ∧ npmInstall packages options events procOk = ([], validatePackageNames packages)
    ∧ bunUninstall packages uoptions procOk = ([], validatePackageNames packages)
    ∧ npmUninstall packages uoptions procOk = ([], validatePackageNames packages) := by
  have hv : ∃ msg, validatePackageNames packages = some msg := by
    rcases h with h | h
    · subst h; exact ⟨_, rfl⟩
    · refine ⟨"Too many packages (max 100)", ?_⟩
      unfold validatePackageNames
      rw [if_neg (by omega), if_pos (by omega)]
  obtain ⟨msg, hv⟩ := hv
  refine ⟨by simp [hv], ?_, ?_, ?_, ?_⟩ <;>
    simp only [bunInstall, npmInstall, bunUninstall, npmUninstall, hv]

/-- Concrete instantiation of `install_uninstall_validation_gate`. -/
theorem install_uninstall_validation_gate_witness :
    bunInstall [] (InstallOptions.mk false false false none none) [] true
      = ([], validatePackageNames [])
    ∧ validatePackageNames [] ≠ none :=
  ⟨(install_uninstall_validation_gate [] (InstallOptions.mk false false false none none)
      (UninstallOptions.mk false false none) [] true (Or.inl rfl)).2.1,
   (install_uninstall_validation_gate [] (InstallOptions.mk false false false none none)
      (UninstallOptions.mk false false none) [] true (Or.inl rfl)).1⟩

/-! ## C4 / C5 / C6: lock-file parser shape, dedup, child selection -/

theorem dedupSeen_children : ∀ (ms : List (String × String)) (seen : List String)
    (c : DependencyNode), c ∈ dedupSeen seen ms → c.children = [] := by
  intro ms
  induction ms with
  | nil => intro seen c hc; simp [dedupSeen] at hc
  | cons nv rest ih =>
      intro seen c hc
      match nv with
      | (n, v) =>
          simp only [dedupSeen] at hc
          split at hc
          · exact ih seen c hc
          · rcases List.mem_cons.mp hc with rfl | hm
            · rfl
            · exact ih _ c hm

theorem dedupSeen_spec : ∀ (ms : List (String × String)) (seen : List String)
    (c : DependencyNode), c ∈ dedupSeen seen ms →
    seen.contains c.name = false
    ∧ ms.find? (fun p => p.1 == c.name) = some (c.name, c.version) := by
  intro ms
  induction ms with
  | nil => intro seen c hc; simp [dedupSeen] at hc
  | cons nv rest ih =>
      intro seen c hc
      match nv with
      | (n, v) =>
          simp only [dedupSeen] at hc
          split at hc
          · rename_i hseen
            obtain ⟨h1, h2⟩ := ih seen c hc
            have hne : (n == c.name) = false := by
              rw [beq_eq_false_iff_ne]
              intro he
              rw [he] at hseen
              rw [hseen] at h1
              exact Bool.true_eq_false.mp h1
            refine ⟨h1, ?_⟩
            rw [List.find?_cons]
            simp only [hne]
            exact h2
          · rename_i hseen
            rcases List.mem_cons.mp hc with rfl | hm
            · refine ⟨by simpa using hseen, ?_⟩
              rw [List.find?_cons]
              simp [DependencyNode.name, DependencyNode.version]
            · obtain ⟨h1, h2⟩ := ih (n :: seen) c hm
              have hcc : ((c.name == n) || seen.contains c.name) = false := by
                simpa [List.contains_cons] using h1
              obtain ⟨hne0, hs⟩ := Bool.or_eq_false_iff.mp hcc
              have hne : (n == c.name) = false :=
                beq_eq_false_iff_ne.mpr
                  (fun he => (beq_eq_false_iff_ne.mp hne0) he.symm)
              refine ⟨hs, ?_⟩
              rw [List.find?_cons]
              simp only [hne]
              exact h2

theorem dedupSeen_nodup : ∀ (ms : List (String × String)) (seen : List String),
    ((dedupSeen seen ms).map DependencyNode.name).Nodup := by
  intro ms
  induction ms with
  | nil => intro seen; simp [dedupSeen]
  | cons nv rest ih =>
      intro seen
      match nv with
      | (n, v) =>
          simp only [dedupSeen]
          split
          · exact ih seen
          · rw [List.map_cons, List.nodup_cons]
            refine ⟨?_, ih (n :: seen)⟩
            intro hmem
            rw [List.mem_map] at hmem
            obtain ⟨c, hc, hname⟩ := hmem
            have hname2 : c.name = n := hname
            have h1 := (dedupSeen_spec rest (n :: seen) c hc).1
            rw [hname2] at h1
            have h2 : (n :: seen).contains n = true :=
              List.elem_eq_true_of_mem (List.mem_cons_self n seen)
            rw [h1] at h2
            exact absurd h2 (by decide)

theorem splitSubF_ne_nil (p : Char) (ps : List Char) :
    ∀ (fuel : Nat) (s : List Char), splitSubF p ps fuel s ≠ [] := by
  intro fuel
  induction fuel with
  | zero => intro s; cases s <;> simp [splitSubF]
  | succ n ih =>
      intro s
      cases s with
      | nil => simp [splitSubF]
      | cons c cs =>
          simp only [splitSubF]
          split
          · simp
          · split <;> simp

theorem splitSubF_singleton (p : Char) (ps : List Char) :
    ∀ (fuel : Nat) (s x : List Char), splitSubF p ps fuel s = [x] → x = s := by
  intro fuel
  induction fuel with
  | zero =>
      intro s x h
      cases s with
      | nil =>
          simp only [splitSubF, List.cons.injEq, and_true] at h
          exact h.symm
      | cons c cs =>
          simp only [splitSubF, List.cons.injEq, and_true] at h
          exact h.symm
  | succ n ih =>
      intro s x h
      cases s with
      | nil =>
          simp only [splitSubF, List.cons.injEq, and_true] at h
          exact h.symm
      | cons c cs =>
          simp only [splitSubF] at h
          split at h
          · simp only [List.cons.injEq] at h
            exact absurd h.2 (splitSubF_ne_nil p ps n _)
          · split at h
            · rename_i heq
              exact absurd heq (splitSubF_ne_nil p ps n cs)
            · rename_i chunk rest2 heq
              simp only [List.cons.injEq] at h
              obtain ⟨hx, hrest⟩ := h
              subst hrest
              have := ih cs chunk heq
              subst this
              exact hx.symm

theorem splitSubF_irrel (p : Char) (ps : List Char) :
    ∀ (f1 : Nat) (s : List Char) (f2 : Nat), s.length ≤ f1 → s.length ≤ f2 →
      splitSubF p ps f1 s = splitSubF p ps f2 s := by
  intro f1
  induction f1 with
  | zero =>
      intro s f2 h1 _
      have hs : s = [] := List.length_eq_zero.mp (Nat.le_zero.mp h1)
      subst hs
      cases f2 <;> rfl
  | succ n ih =>
      intro s f2 h1 h2
      cases s with
      | nil => cases f2 <;> rfl
      | cons c cs =>
          cases f2 with
          | zero => simp at h2
          | succ m =>
              simp only [splitSubF]
              simp only [List.length_cons] at h1 h2
              split
              · rw [ih (cs.drop ps.length) m
                  (by simp [List.length_drop]; omega)
                  (by simp [List.length_drop]; omega)]
              · rw [ih cs m (by omega) (by omega)]

theorem splitSub_ne_nil (p : Char) (ps : List Char) (s : List Char) :
    splitSub p ps s ≠ [] :=
  splitSubF_ne_nil p ps s.length s

theorem splitSub_singleton (p : Char) (ps : List Char) (s x : List Char)
    (h : splitSub p ps s = [x]) : x = s :=
  splitSubF_singleton p ps s.length s x h

theorem splitSub_append_pattern (p : Char) (ps : List Char) (t : List Char) :
    splitSub p ps ((p :: ps) ++ t) = [] :: splitSub p ps t := by
  have hpre : (p :: ps).isPrefixOf (p :: (ps ++ t)) = true :=
    List.isPrefixOf_iff_prefix.mpr (List.prefix_append (p :: ps) t)
  show splitSubF p ps ((p :: ps) ++ t).length ((p :: ps) ++ t)
      = [] :: splitSubF p ps t.length t
  rw [show ((p :: ps) ++ t).length = (ps ++ t).length + 1 from by simp]
  show (if (p :: ps).isPrefixOf (p :: (ps ++ t)) = true then
          [] :: splitSubF p ps (ps ++ t).length ((ps ++ t).drop ps.length)
        else
          match splitSubF p ps (ps ++ t).length (ps ++ t) with
          | [] => [[p]]
          | chunk :: rest => (p :: chunk) :: rest)
      = [] :: splitSubF p ps t.length t
  rw [if_pos hpre, List.drop_left]
  rw [splitSubF_irrel p ps (ps ++ t).length t t.length
    (by simp) (Nat.le_refl _)]

theorem countSub_prefix (p : Char) (ps : List Char) (t : List Char) :
    countSub p ps ((p :: ps) ++ t) = countSub p ps t + 1 := by
  unfold countSub
  rw [splitSub_append_pattern]
  have h := splitSub_ne_nil p ps t
  have hlen : (splitSub p ps t).length ≠ 0 := by
    intro hx
    exact h (List.length_eq_zero.mp hx)
  simp only [List.length_cons]
  omega

theorem removeFirst_append (p0 : Char) (prest t : List Char) :
    removeFirst (p0 :: prest) ((p0 :: prest) ++ t) = t := by
  have hpre : (p0 :: prest).isPrefixOf (p0 :: (prest ++ t)) = true :=
    List.isPrefixOf_iff_prefix.mpr (List.prefix_append (p0 :: prest) t)
  show (if (p0 :: prest).isPrefixOf (p0 :: (prest ++ t)) = true then
          List.drop (p0 :: prest).length (p0 :: (prest ++ t))
        else p0 :: removeFirst (p0 :: prest) (prest ++ t)) = t
  rw [if_pos hpre]
  show List.drop (prest.length + 1) (p0 :: (prest ++ t)) = t
  rw [List.drop_succ_cons, List.drop_left]

/-- The selection condition of `npmPackagesChild` in closed form: an
entry becomes a child exactly when its path starts with `node_modules/`
and contains exactly one occurrence of `node_modules/`; the child's name
is the path with that leading prefix removed. -/
theorem npmPackagesChild_eq (path : String) (info : Json) :
    npmPackagesChild path info
      = if nmChars.isPrefixOf path.toList = true
            ∧ countSub 'n' (nmChars.drop 1) path.toList = 1
        then some (DependencyNode.node (String.mk (removeFirst nmChars path.toList))
               (jsStrOr (objGetJ info "version") "0.0.0") [])
        else none := by
  by_cases hpre : nmChars.isPrefixOf path.toList = true
  · obtain ⟨t, ht⟩ := List.isPrefixOf_iff_prefix.mp hpre
    have hne : ¬ (path = "") := by
      intro he
      subst he
      simp [nmChars] at ht
    have hnm : nmChars = 'n' :: nmChars.drop 1 := rfl
    have hrm : removeFirst nmChars path.toList = t := by
      rw [← ht, hnm]
      exact removeFirst_append _ _ _
    have hcount : countSub 'n' (nmChars.drop 1) path.toList
        = countSub 'n' (nmChars.drop 1) t + 1 := by
      rw [← ht, hnm]
      exact countSub_prefix _ _ _
    unfold npmPackagesChild
    rw [if_neg hne, if_neg (by simpa using hpre), hrm]
    rcases hs : splitSub 'n' (nmChars.drop 1) t with _ | ⟨a, _ | ⟨b, l⟩⟩
    · exact absurd hs (splitSub_ne_nil _ _ _)
    · have ha : a = t := splitSub_singleton _ _ _ _ hs
      have hc0 : countSub 'n' (nmChars.drop 1) t = 0 := by
        unfold countSub
        rw [hs]
        rfl
      rw [if_pos ⟨hpre, by omega⟩, ha]
    · have hc2 : 1 ≤ countSub 'n' (nmChars.drop 1) t := by
        unfold countSub
        rw [hs]
        simp only [List.length_cons]
        omega
      rw [if_neg (fun hcon => absurd hcon.2 (by omega))]
  · rw [if_neg (fun hcon => hpre hcon.1)]
    unfold npmPackagesChild
    by_cases hp : path = ""
    · rw [if_pos hp]
    · rw [if_neg hp, if_pos (by simpa using hpre)]

theorem objEntries_keys_nodup : ∀ (fields : List (String × Json)),
    ((objEntries fields).map Prod.fst).Nodup := by
  intro fields
  induction fields with
  | nil => simp [objEntries]
  | cons kv rest ih =>
      match kv with
      | (k, v) =>
          simp only [objEntries, List.map_cons]
          rw [List.nodup_cons]
          constructor
          · intro hmem
            rw [List.mem_map] at hmem
            obtain ⟨q, hq, hfst⟩ := hmem
            have hp := List.of_mem_filter hq
            simp only [decide_eq_true_eq] at hp
            exact hp hfst
          · exact List.Nodup.sublist ((List.filter_sublist _).map Prod.fst) ih

theorem parseNpmLockFile_children_flat (parsed : Except String Json) :
    ∀ c ∈ (parseNpmLockFile parsed).children, c.children = [] := by
  match parsed with
  | Except.error e => simp [parseNpmLockFile, DependencyNode.children]
  | Except.ok lock =>
      intro c hc
      simp only [parseNpmLockFile, DependencyNode.children] at hc
      split at hc
      · rw [List.mem_filterMap] at hc
        obtain ⟨pi, _, hpi⟩ := hc
        rw [npmPackagesChild_eq] at hpi
        split at hpi
        · simp only [Option.some.injEq] at hpi
          subst hpi
          rfl
        · simp at hpi
      · split at hc
        · rw [List.mem_map] at hc
          obtain ⟨pi, _, hpi⟩ := hc
          subst hpi
          rfl
        · simp at hc

theorem parseNpmLockFile_names_nodup (parsed : Except String Json) :
    ((parseNpmLockFile parsed).children.map DependencyNode.name).Nodup := by
  match parsed with
  | Except.error e => simp [parseNpmLockFile, DependencyNode.children]
  | Except.ok lock =>
      simp only [parseNpmLockFile, DependencyNode.children]
      split
      · rw [List.map_filterMap]
        have hfn : (fun pi : String × Json =>
            Option.map DependencyNode.name (npmPackagesChild pi.1 pi.2))
            = (fun pi : String × Json =>
                if nmChars.isPrefixOf pi.1.toList = true
                    ∧ countSub 'n' (nmChars.drop 1) pi.1.toList = 1
                then some (String.mk (removeFirst nmChars pi.1.toList))
                else none) := by
          funext pi
          rw [npmPackagesChild_eq]
          split
          · rfl
          · rfl
        rw [hfn]
        have hcomp : (fun pi : String × Json =>
            if nmChars.isPrefixOf pi.1.toList = true
                ∧ countSub 'n' (nmChars.drop 1) pi.1.toList = 1
            then some (String.mk (removeFirst nmChars pi.1.toList))
            else none)
            = (fun k : String =>
                if nmChars.isPrefixOf k.toList = true
                    ∧ countSub 'n' (nmChars.drop 1) k.toList = 1
                then some (String.mk (removeFirst nmChars k.toList))
                else none) ∘ Prod.fst := rfl
        rw [hcomp, ← List.filterMap_map]
        apply List.Nodup.filterMap
        · intro a b x hx hx2
          split at hx
          · rename_i hca
            split at hx2
            · rename_i hcb
              simp only [Option.mem_def, Option.some.injEq] at hx hx2
              obtain ⟨ta, hta⟩ := List.isPrefixOf_iff_prefix.mp hca.1
              obtain ⟨tb, htb⟩ := List.isPrefixOf_iff_prefix.mp hcb.1
              have hnm : nmChars = 'n' :: nmChars.drop 1 := rfl
              have hra : removeFirst nmChars a.toList = ta := by
                rw [← hta, hnm]
                exact removeFirst_append _ _ _
              have hrb : removeFirst nmChars b.toList = tb := by
                rw [← htb, hnm]
                exact removeFirst_append _ _ _
              rw [hra] at hx
              rw [hrb] at hx2
              have htt : ta = tb := by
                have h3 := hx.trans hx2.symm
                exact congrArg String.data h3
              apply String.ext
              show a.toList = b.toList
              rw [← hta, ← htb, htt]
            · simp at hx2
          · simp at hx
        · exact objEntries_keys_nodup _
      · split
        · rw [List.map_map]
          exact objEntries_keys_nodup _
        · simp

/-- C4 counterexample: the npm lock parser takes the root name/version
from the lock file itself (`lock.name || 'root'`), so the returned root
is not always `root`/`0.0.0`. -/
theorem parseLockFile_root_cex :
    (parseLockFile "x" (Except.ok (Json.obj [("name", Json.str "foo"),
        ("version", Json.str "1.2.3")])) LockType.npm).name = "foo"
    ∧ ¬ ((parseLockFile "x" (Except.ok (Json.obj [("name", Json.str "foo"),
        ("version", Json.str "1.2.3")])) LockType.npm).name = "root") := by
  constructor
  · rfl
  · decide

/-- C4 (amended): every lock-file parse yields direct dependencies only
as children, none of which has children of its own; the yarn and pnpm
parsers always root the tree at `root`/`0.0.0`; the npm parser takes the
root name and version from the lock JSON (`lock.name || 'root'`,
`lock.version || '0.0.0'`), falling back to `root`/`0.0.0` when those
fields are absent or the JSON does not parse. -/
theorem parseLockFile_shape (content : String) (parsedJson : Except String Json)
    (t : LockType) :
    (∀ c ∈ (parseLockFile content parsedJson t).children, c.children = [])
    ∧ ((t = LockType.yarn ∨ t = LockType.pnpm) →
        (parseLockFile content parsedJson t).name = "root"
        ∧ (parseLockFile content parsedJson t).version = "0.0.0")
    ∧ (∀ lock, t = LockType.npm → parsedJson = Except.ok lock →
        objGetJ lock "name" = none → objGetJ lock "version" = none →
        (parseLockFile content parsedJson t).name = "root"
        ∧ (parseLockFile content parsedJson t).version = "0.0.0") := by
  refine ⟨?_, ?_, ?_⟩
  · match t with
    | LockType.npm => exact parseNpmLockFile_children_flat parsedJson
    | LockType.yarn => exact fun c hc => dedupSeen_children _ _ c hc
    | LockType.pnpm => exact fun c hc => dedupSeen_children _ _ c hc
  · intro ht
    rcases ht with rfl | rfl
    · exact ⟨rfl, rfl⟩
    · exact ⟨rfl, rfl⟩
  · intro lock ht hj hn hv
    subst ht
    subst hj
    constructor
    · show jsStrOr (objGetJ lock "name") "root" = "root"
      rw [hn]
      rfl
    · show jsStrOr (objGetJ lock "version") "0.0.0" = "0.0.0"
      rw [hv]
      rfl

/-- Concrete instantiation of `parseLockFile_shape`. -/
theorem parseLockFile_shape_witness :
    (DependencyNode.node "lodash" "4.17.21" []).children = []
    ∧ (parseLockFile "lodash@^4.17.21:\n  version \"4.17.21\"\n"
        (Except.error "not json") LockType.yarn).name = "root"
    ∧ (parseLockFile "lodash@^4.17.21:\n  version \"4.17.21\"\n"
        (Except.error "not json") LockType.yarn).version = "0.0.0" := by
  refine ⟨?_, ?_, ?_⟩
  · exact (parseLockFile_shape "lodash@^4.17.21:\n  version \"4.17.21\"\n"
      (Except.error "not json") LockType.yarn).1
      (DependencyNode.node "lodash" "4.17.21" [])
      (by rw [show (parseLockFile "lodash@^4.17.21:\n  version \"4.17.21\"\n"
            (Except.error "not json") LockType.yarn).children
          = [DependencyNode.node "lodash" "4.17.21" []] from rfl]
          exact List.mem_singleton_self _)
  · exact ((parseLockFile_shape "lodash@^4.17.21:\n  version \"4.17.21\"\n"
      (Except.error "not json") LockType.yarn).2.1 (Or.inl rfl)).1
  · exact ((parseLockFile_shape "lodash@^4.17.21:\n  version \"4.17.21\"\n"
      (Except.error "not json") LockType.yarn).2.1 (Or.inl rfl)).2

/-- C5 counterexample: with duplicate JSON keys the npm lock parser does
NOT keep the first occurrence's version: `JSON.parse` resolves duplicate
object keys with the last assignment, so the retained version is the
last one. -/
theorem parseLockFile_dedup_cex :
    ((parseLockFile "x" (Except.ok (Json.obj [("dependencies", Json.obj
        [("foo", Json.obj [("version", Json.str "1.0.0")]),
         ("foo", Json.obj [("version", Json.str "2.0.0")])])]))
        LockType.npm).children.map (fun c => (c.name, c.version)))
      = [("foo", "2.0.0")]
    ∧ ¬ (((parseLockFile "x" (Except.ok (Json.obj [("dependencies", Json.obj
        [("foo", Json.obj [("version", Json.str "1.0.0")]),
         ("foo", Json.obj [("version", Json.str "2.0.0")])])]))
        LockType.npm).children.map (fun c => (c.name, c.version)))
      = [("foo", "1.0.0")]) := by
  constructor
  · rfl
  · decide

/-- C5 (amended): all three lock-file parsers return children with
pairwise-distinct names; the yarn and pnpm parsers retain the version of
the first occurrence of each name in their match sequence; the npm
parser reads the already-deduplicated `JSON.parse` object, in which a
duplicated key holds its last value. -/
theorem lockFile_dedup (content : String) (parsedJson : Except String Json) :
    (((parseYarnLockFile content).children.map DependencyNode.name).Nodup
      ∧ ∀ c ∈ (parseYarnLockFile content).children,
          (yarnScan content.toList true).find? (fun p => p.1 == c.name)
            = some (c.name, c.version))
    ∧ (((parsePnpmLockFile content).children.map DependencyNode.name).Nodup
      ∧ ∀ c ∈ (parsePnpmLockFile content).children,
          (pnpmScan (splitLines content) false).find? (fun p => p.1 == c.name)
            = some (c.name, c.version))
    ∧ ((parseNpmLockFile parsedJson).children.map DependencyNode.name).Nodup := by
  refine ⟨⟨dedupSeen_nodup _ _, ?_⟩, ⟨dedupSeen_nodup _ _, ?_⟩,
    parseNpmLockFile_names_nodup parsedJson⟩
  · exact fun c hc => (dedupSeen_spec _ _ c hc).2
  · exact fun c hc => (dedupSeen_spec _ _ c hc).2

/-- Concrete instantiation of `lockFile_dedup`. -/
theorem lockFile_dedup_witness :
    (yarnScan ("a@^1.0.0:\n  version \"1.0.0\"\na@^2.0.0:\n  version \"2.0.0\"\n").toList
        true).find? (fun p => p.1 == "a") = some ("a", "1.0.0") := by
  have h := (lockFile_dedup "a@^1.0.0:\n  version \"1.0.0\"\na@^2.0.0:\n  version \"2.0.0\"\n"
      (Except.error "e")).1.2 (DependencyNode.node "a" "1.0.0" [])
      (by rw [show (parseYarnLockFile
            "a@^1.0.0:\n  version \"1.0.0\"\na@^2.0.0:\n  version \"2.0.0\"\n").children
          = [DependencyNode.node "a" "1.0.0" []] from rfl]
          exact List.mem_singleton_self _)
  exact h

/-- C6 counterexample: a workspace-style path containing exactly one
`node_modules/` occurrence that does not start with `node_modules/` is
excluded from the children, so occurrence count alone does not
characterize the selection. -/
theorem npm_flat_map_cex :
    countSub 'n' (nmChars.drop 1) ("a/node_modules/b").toList = 1
    ∧ (parseNpmLockFile (Except.ok (Json.obj [("packages", Json.obj
        [("a/node_modules/b", Json.obj [("version", Json.str "1.0.0")])])]))).children
      = [] := by
  constructor
  · decide
  · rfl

/-- C6 (amended): in an npm-style lock whose JSON holds a `packages`
path-keyed map, exactly those entries whose path starts with
`node_modules/` and contains exactly one `node_modules/` occurrence
become children of the root (named by the path with the leading
`node_modules/` removed); all other entries, including those with one
occurrence in a non-leading position, are excluded. -/
theorem npm_flat_packages_children (lock : Json) (pfields : List (String × Json))
    (hp : objGetJ lock "packages" = some (Json.obj pfields))
    (hne : (objEntries pfields).length > 0) :
    (parseNpmLockFile (Except.ok lock)).children
      = (objEntries pfields).filterMap (fun pi =>
          if nmChars.isPrefixOf pi.1.toList = true
              ∧ countSub 'n' (nmChars.drop 1) pi.1.toList = 1
          then some (DependencyNode.node (String.mk (removeFirst nmChars pi.1.toList))
                 (jsStrOr (objGetJ pi.2 "version") "0.0.0") [])
          else none) := by
  simp only [parseNpmLockFile, DependencyNode.children, hp, jsOrObj]
  rw [if_pos hne]
  have hfn : (fun pi : String × Json => npmPackagesChild pi.1 pi.2)
      = (fun pi : String × Json =>
          if nmChars.isPrefixOf pi.1.toList = true
              ∧ countSub 'n' (nmChars.drop 1) pi.1.toList = 1
          then some (DependencyNode.node (String.mk (removeFirst nmChars pi.1.toList))
                 (jsStrOr (objGetJ pi.2 "version") "0.0.0") [])
          else none) := by
    funext pi
    exact npmPackagesChild_eq pi.1 pi.2
  rw [hfn]

/-- Concrete instantiation of `npm_flat_packages_children`. -/
theorem npm_flat_packages_children_witness :
    (parseNpmLockFile (Except.ok (Json.obj [("packages", Json.obj
        [("node_modules/x", Json.obj [("version", Json.str "1.0.0")])])]))).children
      = (objEntries [("node_modules/x", Json.obj [("version", Json.str "1.0.0")])]).filterMap
          (fun pi =>
            if nmChars.isPrefixOf pi.1.toList = true
                ∧ countSub 'n' (nmChars.drop 1) pi.1.toList = 1
            then some (DependencyNode.node (String.mk (removeFirst nmChars pi.1.toList))
                   (jsStrOr (objGetJ pi.2 "version") "0.0.0") [])
            else none) :=
  npm_flat_packages_children (Json.obj [("packages", Json.obj
    [("node_modules/x", Json.obj [("version", Json.str "1.0.0")])])])
    [("node_modules/x", Json.obj [("version", Json.str "1.0.0")])] rfl (by decide)

end NPVM
